import Mathlib

/-!
Verification of the sta-663-2021 tutorial notebooks.

The numeric example functions of the notebooks
(`T07G_Gradient_Descent_Optimization.ipynb`, `S08B_Numba.ipynb`,
`S07A_Parallel.ipynb`, and the functional-programming notebook) are embedded
as executable Lean definitions over exact rational arithmetic; loops over
numpy arrays become folds or structural recursions over lists, and the state
carried by a loop is passed explicitly.  The theorems below settle the
claims of the specification against these embeddings.
-/

/-- Exponentially weighted average, from cell 6 of
`T07G_Gradient_Descent_Optimization.ipynb`: the loop body is
`z = beta*z + (1 - beta)*y[i]; zs[i] = z`.  The accumulator `z` is passed
explicitly; the list returned collects the values `zs`. -/
def ewaGo (beta z : ℚ) : List ℚ → List ℚ
  | [] => []
  | yi :: ys =>
    let z1 := beta * z + (1 - beta) * yi
    z1 :: ewaGo beta z1 ys

/-- Exponentially weighted average `ewa(y, beta)`: the accumulator starts
at `z = 0`. -/
def ewa (y : List ℚ) (beta : ℚ) : List ℚ := ewaGo beta 0 y

/-- Exponentially weighted average with bias correction, from cell 8 of
`T07G_Gradient_Descent_Optimization.ipynb`: the loop body is
`z = beta*z + (1 - beta)*y[i]; zc = z/(1 - beta**(i+1)); zs[i] = zc`.
The loop index `i` is passed explicitly. -/
def ewabcGo (beta z : ℚ) (i : ℕ) : List ℚ → List ℚ
  | [] => []
  | yi :: ys =>
    let z1 := beta * z + (1 - beta) * yi
    (z1 / (1 - beta ^ (i + 1))) :: ewabcGo beta z1 (i + 1) ys

/-- Bias-corrected exponentially weighted average `ewabc(y, beta)`:
accumulator `z = 0`, index starting at `0`. -/
def ewabc (y : List ℚ) (beta : ℚ) : List ℚ := ewabcGo beta 0 0 y

theorem ewabcGo_eq_ewaGo_div (beta : ℚ) :
    ∀ (ys : List ℚ) (z : ℚ) (i t : ℕ),
      (ewabcGo beta z i ys).get? t =
        ((ewaGo beta z ys).get? t).map (fun w => w / (1 - beta ^ (i + t + 1))) := by
  intro ys
  induction ys with
  | nil => intro z i t; simp [ewabcGo, ewaGo]
  | cons yi ys ih =>
    intro z i t
    cases t with
    | zero => simp [ewabcGo, ewaGo]
    | succ t =>
      simp only [ewabcGo, ewaGo, List.get?]
      rw [ih]
      have : i + 1 + t + 1 = i + (t + 1) + 1 := by omega
      rw [this]

/-- C2: the bias-corrected average is exactly the plain exponentially
weighted average rescaled by `1/(1 - beta^(t+1))` at (0-based) index `t`:
`ewabc(y, beta)[t] = ewa(y, beta)[t] / (1 - beta^(t+1))` for `0 < beta < 1`
and `t` in range. -/
theorem ewabc_eq_ewa_div (y : List ℚ) (beta : ℚ) (t : ℕ)
    (hb0 : 0 < beta) (hb1 : beta < 1) (ht : t < y.length) :
    (ewabc y beta).get? t =
      ((ewa y beta).get? t).map (fun w => w / (1 - beta ^ (t + 1))) := by
  have h := ewabcGo_eq_ewaGo_div beta y 0 0 t
  simpa [ewabc, ewa] using h

/-- Witness for C2 at `y = [1, 2, 3]`, `beta = 1/2`, `t = 1`. -/
theorem ewabc_eq_ewa_div_witness :
    (0:ℚ) < 1/2 ∧ (1:ℚ)/2 < 1 ∧ 1 < [(1:ℚ), 2, 3].length ∧
      (ewabc [(1:ℚ), 2, 3] (1/2)).get? 1 =
        ((ewa [(1:ℚ), 2, 3] (1/2)).get? 1).map (fun w => w / (1 - (1/2:ℚ) ^ (1 + 1))) :=
  ⟨by norm_num, by norm_num, by decide,
    ewabc_eq_ewa_div [(1:ℚ), 2, 3] (1/2) 1 (by norm_num) (by norm_num) (by decide)⟩

theorem ewaGo_linear (beta a b : ℚ) :
    ∀ (y z : List ℚ) (zy zz : ℚ), y.length = z.length →
      ewaGo beta (a * zy + b * zz) (List.zipWith (fun u w => a * u + b * w) y z) =
        List.zipWith (fun u w => a * u + b * w) (ewaGo beta zy y) (ewaGo beta zz z) := by
  intro y
  induction y with
  | nil => intro z zy zz _; simp [ewaGo]
  | cons u ys ih =>
    intro z zy zz hlen
    cases z with
    | nil => simp at hlen
    | cons w zs =>
      simp only [List.zipWith_cons_cons, ewaGo]
      have hhead : beta * (a * zy + b * zz) + (1 - beta) * (a * u + b * w) =
          a * (beta * zy + (1 - beta) * u) + b * (beta * zz + (1 - beta) * w) := by ring
      rw [hhead, ih zs _ _ (by simpa using hlen)]

theorem ewaGo_closed_form (beta : ℚ) :
    ∀ (ys : List ℚ) (z : ℚ) (i : ℕ), i < ys.length →
      (ewaGo beta z ys).get? i =
        some (beta ^ (i + 1) * z +
          (1 - beta) * ∑ k ∈ Finset.range (i + 1), beta ^ (i - k) * ys.getD k 0) := by
  intro ys
  induction ys with
  | nil => intro z i h; simp at h
  | cons u ys ih =>
    intro z i hi
    cases i with
    | zero =>
      simp only [ewaGo, List.get?]
      congr 1
      rw [Finset.sum_range_one]
      simp only [List.getD_cons_zero, Nat.sub_zero, pow_zero]
      ring
    | succ i =>
      simp only [ewaGo, List.get?]
      rw [ih _ i (by simpa using hi)]
      congr 1
      rw [Finset.sum_range_succ' (fun k => beta ^ (i + 1 - k) * (u :: ys).getD k 0) (i + 1)]
      simp only [List.getD_cons_succ, List.getD_cons_zero, Nat.succ_sub_succ, Nat.sub_zero]
      ring

/-- C3: the exponentially weighted average is a linear filter, and each
output element has the closed form
`ewa(y, beta)[i] = (1 - beta) * sum over k of beta^(i-k) * y[k]`.
Linearity is stated elementwise over equal-length inputs via `zipWith`. -/
theorem ewa_linear_and_closed_form (a b beta : ℚ) (y z : List ℚ) (i : ℕ)
    (hlen : y.length = z.length) (hi : i < y.length) :
    ewa (List.zipWith (fun u w => a * u + b * w) y z) beta =
        List.zipWith (fun u w => a * u + b * w) (ewa y beta) (ewa z beta) ∧
      (ewa y beta).get? i =
        some ((1 - beta) * ∑ k ∈ Finset.range (i + 1), beta ^ (i - k) * y.getD k 0) := by
  constructor
  · have h := ewaGo_linear beta a b y z 0 0 hlen
    simpa [ewa] using h
  · have h := ewaGo_closed_form beta y 0 i hi
    simpa [ewa] using h

/-- Witness for C3 at `a = 2`, `b = 3`, `y = [1, 2]`, `z = [4, 5]`, `i = 1`. -/
theorem ewa_linear_and_closed_form_witness :
    [(1:ℚ), 2].length = [(4:ℚ), 5].length ∧ 1 < [(1:ℚ), 2].length ∧
      (ewa (List.zipWith (fun u w => 2 * u + 3 * w) [(1:ℚ), 2] [(4:ℚ), 5]) (1/2) =
          List.zipWith (fun u w => 2 * u + 3 * w)
            (ewa [(1:ℚ), 2] (1/2)) (ewa [(4:ℚ), 5] (1/2)) ∧
        (ewa [(1:ℚ), 2] (1/2)).get? 1 =
          some ((1 - (1/2:ℚ)) *
            ∑ k ∈ Finset.range (1 + 1), (1/2:ℚ) ^ (1 - k) * [(1:ℚ), 2].getD k 0)) :=
  ⟨by decide, by decide,
    ewa_linear_and_closed_form 2 3 (1/2) [(1:ℚ), 2] [(4:ℚ), 5] 1 (by decide) (by decide)⟩

/-- Loop body of `gd_momentum` from cell 14 of
`T07G_Gradient_Descent_Optimization.ipynb`:
`v = beta*v + (1-beta)*grad(x); vc = v/(1+beta**(i+1)); x = x - alpha*vc;
xs[i+1] = x`.  The state `(x, v)` and the loop index `i` are passed
explicitly; the returned list collects the entries `xs[i+1], ...` written
by the remaining iterations. -/
def gdMomentumGo (grad : ℚ → ℚ) (alpha beta : ℚ) : ℚ → ℚ → ℕ → ℕ → List ℚ
  | _, _, _, 0 => []
  | x, v, i, r + 1 =>
    let v1 := beta * v + (1 - beta) * grad x
    let vc := v1 / (1 + beta ^ (i + 1))
    let x1 := x - alpha * vc
    x1 :: gdMomentumGo grad alpha beta x1 v1 (i + 1) r

/-- `gd_momentum(x, grad, alpha, beta, max_iter)`: the returned array has
`xs[0] = x` followed by the `max_iter` updated positions; the velocity
starts at `v = 0`. -/
def gd_momentum (x : ℚ) (grad : ℚ → ℚ) (alpha beta : ℚ) (max_iter : ℕ) : List ℚ :=
  x :: gdMomentumGo grad alpha beta x 0 0 max_iter

/-- Velocity/position pair after `i` iterations of the `gd_momentum` loop:
`momState ... i = (v_i, x_i)` with `v_0 = 0`, `x_0 = x0`, and one loop
iteration per successor step. -/
def momState (x0 : ℚ) (grad : ℚ → ℚ) (alpha beta : ℚ) : ℕ → ℚ × ℚ
  | 0 => (0, x0)
  | i + 1 =>
    let p := momState x0 grad alpha beta i
    let v1 := beta * p.1 + (1 - beta) * grad p.2
    (v1, p.2 - alpha * (v1 / (1 + beta ^ (i + 1))))

/-- Modelled from the spec: the momentum update exactly as the
specification words it, `v <- beta*v + (1-beta)*grad(x); x <- x - alpha*v`,
with no damping of the applied velocity.  This is the recurrence claim C1
asserts the code performs; it is compared against the `gd_momentum`
embedding of the source. -/
def momStateSpec (x0 : ℚ) (grad : ℚ → ℚ) (alpha beta : ℚ) : ℕ → ℚ × ℚ
  | 0 => (0, x0)
  | i + 1 =>
    let p := momStateSpec x0 grad alpha beta i
    let v1 := beta * p.1 + (1 - beta) * grad p.2
    (v1, p.2 - alpha * v1)

theorem gdMomentumGo_get? (grad : ℚ → ℚ) (alpha beta x0 : ℚ) :
    ∀ (r i j : ℕ), j < r →
      (gdMomentumGo grad alpha beta (momState x0 grad alpha beta i).2
          (momState x0 grad alpha beta i).1 i r).get? j =
        some ((momState x0 grad alpha beta (i + j + 1)).2) := by
  intro r
  induction r with
  | zero => intro i j h; omega
  | succ r ih =>
    intro i j hj
    cases j with
    | zero => simp [gdMomentumGo, momState]
    | succ j =>
      have hstep :
          gdMomentumGo grad alpha beta (momState x0 grad alpha beta i).2
              (momState x0 grad alpha beta i).1 i (r + 1) =
            (momState x0 grad alpha beta (i + 1)).2 ::
              gdMomentumGo grad alpha beta (momState x0 grad alpha beta (i + 1)).2
                (momState x0 grad alpha beta (i + 1)).1 (i + 1) r := by
        simp [gdMomentumGo, momState]
      rw [hstep]
      simp only [List.get?]
      rw [ih (i + 1) j (by omega)]
      have harg : i + 1 + j + 1 = i + (j + 1) + 1 := by omega
      rw [harg]

theorem gd_momentum_get? (x0 : ℚ) (grad : ℚ → ℚ) (alpha beta : ℚ) (n i : ℕ)
    (hi : i ≤ n) :
    (gd_momentum x0 grad alpha beta n).get? i =
      some ((momState x0 grad alpha beta i).2) := by
  cases i with
  | zero => simp [gd_momentum, momState]
  | succ i =>
    have h0 : (momState x0 grad alpha beta 0).2 = x0 := by simp [momState]
    have h1 : (momState x0 grad alpha beta 0).1 = 0 := by simp [momState]
    have := gdMomentumGo_get? grad alpha beta x0 n 0 i (by omega)
    rw [h0, h1] at this
    simpa [gd_momentum] using this

/-- C1 counterexample: the claim states `x <- x - alpha*v` with
`v <- beta*v + (1-beta)*grad(x)`, but at `x0 = 1`, `grad = id`, `alpha = 1`,
`beta = 1/2`, one iteration of `gd_momentum` yields `2/3` (the code damps
the applied velocity by `1/(1+beta^(i+1))`), not the `1/2` the claimed
recurrence produces. -/
theorem gd_momentum_not_spec_update :
    (gd_momentum 1 (fun a => a) 1 (1/2) 1).get? 1 ≠
      some ((momStateSpec 1 (fun a => a) 1 (1/2) 1).2) := by
  simp only [gd_momentum, gdMomentumGo, momStateSpec, List.get?]
  norm_num

/-- C1 amended: each iteration of `gd_momentum` updates the velocity as
`v <- beta*v + (1-beta)*grad(x)` and the position as
`x <- x - alpha*(v/(1+beta^(i+1)))`: row `i+1` of the returned array equals
row `i` minus `alpha` times the damped velocity `v/(1+beta^(i+1))`, where
`v` follows the stated recurrence. -/
theorem gd_momentum_rows (x0 : ℚ) (grad : ℚ → ℚ) (alpha beta : ℚ) (n i : ℕ)
    (hi : i < n) :
    (gd_momentum x0 grad alpha beta n).get? i =
        some ((momState x0 grad alpha beta i).2) ∧
      (gd_momentum x0 grad alpha beta n).get? (i + 1) =
        some ((momState x0 grad alpha beta i).2 -
          alpha * ((beta * (momState x0 grad alpha beta i).1 +
            (1 - beta) * grad ((momState x0 grad alpha beta i).2)) /
              (1 + beta ^ (i + 1)))) := by
  refine ⟨gd_momentum_get? x0 grad alpha beta n i (by omega), ?_⟩
  rw [gd_momentum_get? x0 grad alpha beta n (i + 1) (by omega)]
  simp [momState]

/-- Witness for the amended C1 at `x0 = 1`, `grad = id`, `alpha = 1`,
`beta = 1/2`, `n = 1`, `i = 0`. -/
theorem gd_momentum_rows_witness :
    0 < 1 ∧
      ((gd_momentum 1 (fun a => a) 1 (1/2) 1).get? 0 =
          some ((momState 1 (fun a => a) 1 (1/2) 0).2) ∧
        (gd_momentum 1 (fun a => a) 1 (1/2) 1).get? (0 + 1) =
          some ((momState 1 (fun a => a) 1 (1/2) 0).2 -
            1 * (((1/2) * (momState 1 (fun a => a) 1 (1/2) 0).1 +
              (1 - 1/2) * (momState 1 (fun a => a) 1 (1/2) 0).2) /
                (1 + (1/2:ℚ) ^ (0 + 1))))) :=
  ⟨by decide, gd_momentum_rows 1 (fun a => a) 1 (1/2) 1 0 (by decide)⟩

/-- Velocity component of the C4 run of `gd_momentum`: objective
`f(x) = x^2`, gradient `grad(x) = 2x`, start `x0 = 1`, `alpha = 0.95`,
`beta = 0.9` (the configuration of cell 20 of the notebook). -/
def vC4 (n : ℕ) : ℚ := (momState 1 (fun x => 2 * x) (19/20) (9/10) n).1

/-- Position component of the C4 run of `gd_momentum`. -/
def xC4 (n : ℕ) : ℚ := (momState 1 (fun x => 2 * x) (19/20) (9/10) n).2

/-- Effective step factor of iteration `n` of the C4 run:
`alpha/(1+beta^(n+1))`. -/
def cC4 (n : ℕ) : ℚ := (19/20) / (1 + (9/10) ^ (n + 1))

/-- Quadratic Lyapunov form controlling the C4 run. -/
def lyapV (v x : ℚ) : ℚ := 4 * v ^ 2 + (2/5) * v * x + x ^ 2

theorem stepC4 (n : ℕ) :
    vC4 (n + 1) = (9/10) * vC4 n + (1/5) * xC4 n ∧
      xC4 (n + 1) = xC4 n - cC4 n * ((9/10) * vC4 n + (1/5) * xC4 n) := by
  constructor
  · simp only [vC4, xC4, momState]
    ring
  · simp only [vC4, xC4, cC4, momState]
    ring

theorem cC4_le (n : ℕ) : cC4 n ≤ 19/20 := by
  have hp : (0:ℚ) ≤ (9/10) ^ (n + 1) := by positivity
  have hD : (0:ℚ) < 1 + (9/10) ^ (n + 1) := by linarith
  rw [cC4, div_le_iff hD]
  nlinarith

theorem cC4_ge (n : ℕ) (hn : 20 ≤ n) : 17/20 ≤ cC4 n := by
  have hmono : ((9:ℚ)/10) ^ (n + 1) ≤ (9/10) ^ 21 :=
    pow_le_pow_of_le_one (by norm_num) (by norm_num) (by omega)
  have h21 : ((9:ℚ)/10) ^ 21 ≤ 2/17 := by norm_num
  have hp : (0:ℚ) ≤ (9/10) ^ (n + 1) := by positivity
  have hD : (0:ℚ) < 1 + (9/10) ^ (n + 1) := by linarith
  rw [cC4, le_div_iff hD]
  nlinarith

theorem lyap_contract (v x c : ℚ) (h1 : 17/20 ≤ c) (h2 : c ≤ 19/20) :
    lyapV ((9/10) * v + (1/5) * x) (x - c * ((9/10) * v + (1/5) * x)) ≤
      (19/20) * lyapV v x := by
  have hc1 : (0:ℚ) ≤ c - 17/20 := by linarith
  have hc2 : (0:ℚ) ≤ 19/20 - c := by linarith
  have hm00 : (0:ℚ) < 14/25 + (81/250) * c - (81/100) * c ^ 2 := by
    nlinarith [mul_nonneg hc1 hc2]
  have hdet : (0:ℚ) ≤ -1333/2000 + (37981/25000) * c - (8531/10000) * c ^ 2 := by
    nlinarith [mul_nonneg hc1 hc2]
  have key : (14/25 + (81/250) * c - (81/100) * c ^ 2) *
      ((19/20) * lyapV v x -
        lyapV ((9/10) * v + (1/5) * x) (x - c * ((9/10) * v + (1/5) * x))) =
      ((-(14/25) - (81/250) * c + (81/100) * c ^ 2) * v +
          (71/100 - (243/250) * c + (9/50) * c ^ 2) * x) ^ 2 +
        (-1333/2000 + (37981/25000) * c - (8531/10000) * c ^ 2) * x ^ 2 := by
    simp only [lyapV]
    ring
  nlinarith [key, hm00, hdet,
    sq_nonneg ((-(14/25) - (81/250) * c + (81/100) * c ^ 2) * v +
      (71/100 - (243/250) * c + (9/50) * c ^ 2) * x),
    mul_nonneg hdet (sq_nonneg x)]

theorem V_decr (n : ℕ) (hn : 20 ≤ n) :
    lyapV (vC4 (n + 1)) (xC4 (n + 1)) ≤ (19/20) * lyapV (vC4 n) (xC4 n) := by
  obtain ⟨hv, hx⟩ := stepC4 n
  rw [hv, hx]
  exact lyap_contract _ _ _ (cC4_ge n hn) (cC4_le n)

theorem V_geom (m : ℕ) :
    lyapV (vC4 (20 + m)) (xC4 (20 + m)) ≤
      (19/20) ^ m * lyapV (vC4 20) (xC4 20) := by
  induction m with
  | zero => simp
  | succ m ih =>
    have h := V_decr (20 + m) (by omega)
    have hc : ((19:ℚ)/20) * lyapV (vC4 (20 + m)) (xC4 (20 + m)) ≤
        (19/20) * ((19/20) ^ m * lyapV (vC4 20) (xC4 20)) := by
      nlinarith [ih]
    calc lyapV (vC4 (20 + (m + 1))) (xC4 (20 + (m + 1))) ≤
          (19/20) * lyapV (vC4 (20 + m)) (xC4 (20 + m)) := h
      _ ≤ (19/20) * ((19/20) ^ m * lyapV (vC4 20) (xC4 20)) := hc
      _ = (19/20) ^ (m + 1) * lyapV (vC4 20) (xC4 20) := by ring

theorem lyapV_ge_sq (v x : ℚ) : (99/100) * x ^ 2 ≤ lyapV v x := by
  simp only [lyapV]
  nlinarith [sq_nonneg (2 * v + x / 10)]

theorem lyapV_nonneg (v x : ℚ) : 0 ≤ lyapV v x := by
  simp only [lyapV]
  nlinarith [sq_nonneg (2 * v + x / 10), sq_nonneg x]

/-- C4: on the quadratic bowl `f(x) = x^2` with `grad(x) = 2x`, the
iterates recorded by `gd_momentum` from `x0 = 1` with `alpha = 0.95`,
`beta = 0.9` tend to the minimum at `0`: for every positive tolerance
there is an iteration count beyond which the recorded iterate is smaller
in absolute value than the tolerance. -/
theorem gd_momentum_converges (eps : ℚ) (heps : 0 < eps) :
    ∃ N, ∀ n, N ≤ n → ∀ xn : ℚ,
      (gd_momentum 1 (fun x => 2 * x) (19/20) (9/10) n).get? n = some xn →
      |xn| < eps := by
  have hB0 : 0 ≤ lyapV (vC4 20) (xC4 20) := lyapV_nonneg _ _
  set B := lyapV (vC4 20) (xC4 20) with hBdef
  have hδ : 0 < (99/100) * eps ^ 2 / (B + 1) := by positivity
  obtain ⟨k, hk⟩ := exists_pow_lt_of_lt_one hδ (by norm_num : (19:ℚ)/20 < 1)
  refine ⟨20 + k, fun n hn xn hxn => ?_⟩
  have hrow := gd_momentum_get? 1 (fun x => 2 * x) (19/20) (9/10) n n le_rfl
  rw [hrow] at hxn
  have hxn2 : xn = xC4 n := by
    have := Option.some.inj hxn
    rw [← this]
    rfl
  subst hxn2
  obtain ⟨m, rfl⟩ : ∃ m, n = 20 + m := ⟨n - 20, by omega⟩
  have hm : k ≤ m := by omega
  have h1 : lyapV (vC4 (20 + m)) (xC4 (20 + m)) ≤ (19/20) ^ m * B := V_geom m
  have h2 : ((19:ℚ)/20) ^ m ≤ (19/20) ^ k :=
    pow_le_pow_of_le_one (by norm_num) (by norm_num) hm
  have h3 : ((19:ℚ)/20) ^ k * (B + 1) < (99/100) * eps ^ 2 := by
    rw [lt_div_iff (by positivity : (0:ℚ) < B + 1)] at hk
    exact hk
  have hkpow : (0:ℚ) ≤ (19/20) ^ k := by positivity
  have h4 : ((19:ℚ)/20) ^ m * B ≤ (19/20) ^ k * (B + 1) := by
    nlinarith [mul_le_mul_of_nonneg_right h2 hB0]
  have h5 : (99/100) * (xC4 (20 + m)) ^ 2 ≤ lyapV (vC4 (20 + m)) (xC4 (20 + m)) :=
    lyapV_ge_sq _ _
  have hx2 : (xC4 (20 + m)) ^ 2 < eps ^ 2 := by nlinarith
  nlinarith [sq_abs (xC4 (20 + m)), abs_nonneg (xC4 (20 + m)), hx2, heps]

/-- Witness for C4 at tolerance `eps = 1`. -/
theorem gd_momentum_converges_witness :
    (0:ℚ) < 1 ∧
      ∃ N, ∀ n, N ≤ n → ∀ xn : ℚ,
        (gd_momentum 1 (fun x => 2 * x) (19/20) (9/10) n).get? n = some xn →
        |xn| < 1 :=
  ⟨by norm_num, gd_momentum_converges 1 (by norm_num)⟩

/-- Python values occurring in the `foo` example of the
functional-programming notebook: integers and strings. -/
inductive PyVal where
  | int (n : ℤ)
  | str (s : String)
deriving DecidableEq

/-- Python sequence repetition `s * k` for a string `s` (a non-positive
count yields the empty string, as in Python). -/
def strRep (s : String) : ℕ → String
  | 0 => ""
  | k + 1 => s ++ strRep s k

/-- Python multiplication on the values above: `int * int` multiplies,
`str * int` and `int * str` repeat the string, and `str * str` raises
`TypeError` (modelled as `none`). -/
def pyMul : PyVal → PyVal → Option PyVal
  | .int a, .int b => some (.int (a * b))
  | .str s, .int k => some (.str (strRep s k.toNat))
  | .int k, .str s => some (.str (strRep s k.toNat))
  | .str _, .str _ => none

/-- The annotated function `foo(a: int) -> int: return a * 3` from the
functional-programming notebook (section titled "Not enforced!"). -/
def foo (a : PyVal) : Option PyVal := pyMul a (.int 3)

/-- C5 counterexample: `foo("oops")` does not fail; it returns a value
(the interpreter does not enforce the `int` hint and `str * int` is
sequence repetition). -/
theorem foo_oops_returns : foo (.str "oops") ≠ none := by
  decide

/-- C5 amended: calling `foo` with the non-numeric argument `"oops"`
succeeds and returns the string `"oopsoopsoops"` (the string repeated
three times); type hints are not enforced. -/
theorem foo_oops_value : foo (.str "oops") = some (.str "oopsoopsoops") := by
  decide

/-- Pointwise update `C[i,j] = v` of a two-index array modelled as a
function. -/
def upd2 (C : ℕ → ℕ → ℚ) (i j : ℕ) (v : ℚ) : ℕ → ℕ → ℚ :=
  fun i2 j2 => if i2 = i ∧ j2 = j then v else C i2 j2

/-- `matrix_multiply(A, B)` from cell 15 of `S08B_Numba.ipynb`:
`C = np.zeros((m, p))`, then the triple loop
`for i in range(m): for j in range(p): for k in range(n):
C[i,j] += A[i,k] * B[k,j]`.  Arrays are modelled as functions of their
indices; the mutated array `C` is threaded through the folds. -/
def matrix_multiply (m n p : ℕ) (A B : ℕ → ℕ → ℚ) : ℕ → ℕ → ℚ :=
  (List.range m).foldl (fun C i =>
    (List.range p).foldl (fun C j =>
      (List.range n).foldl (fun C k =>
        upd2 C i j (C i j + A i k * B k j)) C) C)
    (fun _ _ => 0)

theorem inner_loop (A B : ℕ → ℕ → ℚ) (i j : ℕ) :
    ∀ (ks : List ℕ) (C : ℕ → ℕ → ℚ),
      ks.foldl (fun C k => upd2 C i j (C i j + A i k * B k j)) C =
        upd2 C i j (C i j + (ks.map (fun k => A i k * B k j)).sum) := by
  intro ks
  induction ks with
  | nil =>
    intro C
    funext i2 j2
    simp only [List.foldl_nil, List.map_nil, List.sum_nil, add_zero, upd2]
    split
    · next h => rw [h.1, h.2]
    · rfl
  | cons k ks ih =>
    intro C
    simp only [List.foldl_cons, List.map_cons, List.sum_cons]
    rw [ih]
    funext i2 j2
    simp only [upd2]
    split
    · next h =>
      simp only [and_self, if_true]
      ring
    · rfl

theorem middle_loop (n : ℕ) (A B : ℕ → ℕ → ℚ) (i : ℕ) :
    ∀ (js : List ℕ), js.Nodup → ∀ (C : ℕ → ℕ → ℚ),
      js.foldl (fun C j =>
          (List.range n).foldl (fun C k => upd2 C i j (C i j + A i k * B k j)) C) C =
        fun i2 j2 =>
          if i2 = i ∧ j2 ∈ js then
            C i2 j2 + ((List.range n).map (fun k => A i2 k * B k j2)).sum
          else C i2 j2 := by
  intro js
  induction js with
  | nil =>
    intro _ C
    funext i2 j2
    simp
  | cons j js ih =>
    intro hnd C
    have hj : j ∉ js := (List.nodup_cons.mp hnd).1
    have hnd2 : js.Nodup := (List.nodup_cons.mp hnd).2
    simp only [List.foldl_cons]
    rw [inner_loop, ih hnd2]
    funext i2 j2
    by_cases hi2 : i2 = i
    · subst hi2
      by_cases hjj : j2 = j
      · subst hjj
        simp [upd2, hj]
      · by_cases hmem : j2 ∈ js
        · simp [upd2, hjj, hmem]
        · simp [upd2, hjj, hmem]
    · simp [upd2, hi2]

theorem outer_loop (n p : ℕ) (A B : ℕ → ℕ → ℚ) :
    ∀ (il : List ℕ), il.Nodup → ∀ (C : ℕ → ℕ → ℚ),
      il.foldl (fun C i =>
          (List.range p).foldl (fun C j =>
            (List.range n).foldl (fun C k => upd2 C i j (C i j + A i k * B k j)) C) C) C =
        fun i2 j2 =>
          if i2 ∈ il ∧ j2 ∈ List.range p then
            C i2 j2 + ((List.range n).map (fun k => A i2 k * B k j2)).sum
          else C i2 j2 := by
  intro il
  induction il with
  | nil =>
    intro _ C
    funext i2 j2
    simp
  | cons i il ih =>
    intro hnd C
    have hi : i ∉ il := (List.nodup_cons.mp hnd).1
    have hnd2 : il.Nodup := (List.nodup_cons.mp hnd).2
    simp only [List.foldl_cons]
    rw [middle_loop n A B i (List.range p) (List.nodup_range _) C, ih hnd2]
    funext i2 j2
    by_cases hi2 : i2 = i
    · subst hi2
      by_cases hp : j2 ∈ List.range p
      · simp [hi, hp]
      · simp [hi, hp]
    · by_cases hmem : i2 ∈ il
      · simp [hi2, hmem]
      · simp [hi2, hmem]

theorem sum_range_list (n : ℕ) (f : ℕ → ℚ) :
    ((List.range n).map f).sum = ∑ k ∈ Finset.range n, f k := by
  induction n with
  | zero => simp
  | succ n ih => rw [Finset.sum_range_succ, List.range_succ]; simp [ih]

/-- C6: `matrix_multiply` computes the mathematical matrix product: for an
`m x n` array `A` and an `n x p` array `B`, entry `(i, j)` of the result is
`sum over k < n of A[i,k] * B[k,j]` for every in-range `i` and `j`. -/
theorem matrix_multiply_entry (m n p : ℕ) (A B : ℕ → ℕ → ℚ) (i j : ℕ)
    (hi : i < m) (hj : j < p) :
    matrix_multiply m n p A B i j = ∑ k ∈ Finset.range n, A i k * B k j := by
  rw [matrix_multiply,
    outer_loop n p A B (List.range m) (List.nodup_range _) (fun _ _ => 0)]
  simp only [List.mem_range, hi, hj, and_self, if_true, zero_add]
  exact sum_range_list n _

/-- Witness for C6 at `m = n = p = 2`, `A[i,j] = i + 2j`, `B[i,j] = i + j`,
entry `(0, 1)`. -/
theorem matrix_multiply_entry_witness :
    0 < 2 ∧ 1 < 2 ∧
      matrix_multiply 2 2 2 (fun i j => (i : ℚ) + 2 * j) (fun i j => (i : ℚ) + j) 0 1 =
        ∑ k ∈ Finset.range 2,
          (fun i j => (i : ℚ) + 2 * j) 0 k * (fun i j => (i : ℚ) + j) k 1 :=
  ⟨by decide, by decide,
    matrix_multiply_entry 2 2 2 (fun i j => (i : ℚ) + 2 * j)
      (fun i j => (i : ℚ) + j) 0 1 (by decide) (by decide)⟩

/-- Plain recursive Fibonacci from the functional-programming notebook:
`if n == 0: return 0; elif n == 1: return 1;
else: return fib(n-2) + fib(n-1)`.  (The `print` call is a side effect
with no bearing on the returned value.) -/
def fib (n : ℕ) : ℕ :=
  if n = 0 then 0
  else if n = 1 then 1
  else fib (n - 2) + fib (n - 1)
termination_by n
decreasing_by all_goals omega

/-- Body of `fib_cache` under the `lru_cache(maxsize=None)` decorator: the
cache is a lookup table from argument to result, consulted before the body
runs and extended with the computed result afterwards; recursive calls
thread the cache. -/
def fibCacheGo (n : ℕ) (c : List (ℕ × ℕ)) : ℕ × List (ℕ × ℕ) :=
  match c.lookup n with
  | some v => (v, c)
  | none =>
    if n = 0 then (0, (n, 0) :: c)
    else if n = 1 then (1, (n, 1) :: c)
    else
      let p := fibCacheGo (n - 2) c
      let q := fibCacheGo (n - 1) p.2
      (p.1 + q.1, (n, p.1 + q.1) :: q.2)
termination_by n
decreasing_by all_goals omega

/-- `fib_cache(n)`: the memoized Fibonacci, run from an empty cache. -/
def fib_cache (n : ℕ) : ℕ := (fibCacheGo n []).1

/-- A cache is consistent when every stored value is the Fibonacci number
of its key. -/
def CacheOK (c : List (ℕ × ℕ)) : Prop :=
  ∀ k v, c.lookup k = some v → v = fib k

theorem cacheOK_cons (c : List (ℕ × ℕ)) (n v : ℕ) (hc : CacheOK c)
    (hv : v = fib n) : CacheOK ((n, v) :: c) := by
  intro k w hk
  simp only [List.lookup] at hk
  by_cases hkn : k = n
  · subst hkn
    simp at hk
    omega
  · have hne : (k == n) = false := by simp [hkn]
    rw [hne] at hk
    exact hc k w hk

theorem fib_zero : fib 0 = 0 := by rw [fib]; rfl

theorem fib_one : fib 1 = 1 := by rw [fib]; rfl

theorem fib_rec (n : ℕ) (h0 : ¬n = 0) (h1 : ¬n = 1) :
    fib n = fib (n - 2) + fib (n - 1) := by
  rw [fib, if_neg h0, if_neg h1]

theorem fibCacheGo_correct : ∀ n c, CacheOK c →
    (fibCacheGo n c).1 = fib n ∧ CacheOK (fibCacheGo n c).2 := by
  intro n
  induction n using Nat.strong_induction_on with
  | _ n ih =>
    intro c hc
    rw [fibCacheGo]
    cases hl : c.lookup n with
    | some v => exact ⟨hc n v hl, hc⟩
    | none =>
      by_cases h0 : n = 0
      · subst h0
        rw [if_pos rfl]
        exact ⟨fib_zero.symm, cacheOK_cons c 0 0 hc fib_zero.symm⟩
      · by_cases h1 : n = 1
        · subst h1
          rw [if_neg h0, if_pos rfl]
          exact ⟨fib_one.symm, cacheOK_cons c 1 1 hc fib_one.symm⟩
        · rw [if_neg h0, if_neg h1]
          obtain ⟨hp1, hp2⟩ := ih (n - 2) (by omega) c hc
          obtain ⟨hq1, hq2⟩ := ih (n - 1) (by omega) (fibCacheGo (n - 2) c).2 hp2
          have hval : (fibCacheGo (n - 2) c).1 +
              (fibCacheGo (n - 1) (fibCacheGo (n - 2) c).2).1 = fib n := by
            rw [hp1, hq1, fib_rec n h0 h1]
          exact ⟨hval, cacheOK_cons _ n _ hq2 hval⟩

/-- C7: the two Fibonacci variants agree: for every `n`, the memoized
`fib_cache(n)` returns the same value as the plain recursive `fib(n)`;
memoization never changes the result. -/
theorem fib_cache_eq_fib (n : ℕ) : fib_cache n = fib n := by
  have h := fibCacheGo_correct n [] (by intro k v hk; simp [List.lookup] at hk)
  exact h.1

/-- Hit counter of `mc_pi(n)` from cell 50 of `S07A_Parallel.ipynb`:
`s = 0; for i in range(n): x, y = sample; if (x**2 + y**2) < 1: s += 1`.
The sampled points are a parameter `pts` (the code draws them from
`np.random.uniform(-1, 1)`). -/
def mcPiCount (n : ℕ) (pts : ℕ → ℚ × ℚ) : ℕ :=
  (List.range n).foldl (fun s i =>
    if (pts i).1 ^ 2 + (pts i).2 ^ 2 < 1 then s + 1 else s) 0

/-- `mc_pi(n)` returns `4*s/n`. -/
def mc_pi (n : ℕ) (pts : ℕ → ℚ × ℚ) : ℚ :=
  4 * (mcPiCount n pts) / n

theorem foldl_count_le (P : ℕ → Prop) [DecidablePred P] :
    ∀ (l : List ℕ) (s : ℕ),
      l.foldl (fun s i => if P i then s + 1 else s) s ≤ s + l.length := by
  intro l
  induction l with
  | nil => intro s; simp
  | cons i l ih =>
    intro s
    simp only [List.foldl_cons, List.length_cons]
    by_cases h : P i
    · rw [if_pos h]
      have := ih (s + 1)
      omega
    · rw [if_neg h]
      have := ih s
      omega

theorem mcPiCount_le (n : ℕ) (pts : ℕ → ℚ × ℚ) : mcPiCount n pts ≤ n := by
  have h := foldl_count_le (fun i => (pts i).1 ^ 2 + (pts i).2 ^ 2 < 1) (List.range n) 0
  simpa [mcPiCount] using h

/-- C9: for `n >= 1` and any sequence of sampled points, the hit counter of
`mc_pi` stays between `0` and `n` (it is a natural number bounded by the
number of loop iterations), and the returned `4*s/n` lies in `[0, 4]`. -/
theorem mc_pi_bounds (n : ℕ) (pts : ℕ → ℚ × ℚ) (hn : 1 ≤ n) :
    mcPiCount n pts ≤ n ∧ 0 ≤ mc_pi n pts ∧ mc_pi n pts ≤ 4 := by
  have hc := mcPiCount_le n pts
  have hnq : (0:ℚ) < n := by exact_mod_cast hn
  refine ⟨hc, ?_, ?_⟩
  · rw [mc_pi]
    positivity
  rw [mc_pi, div_le_iff₀ hnq]
  have : (mcPiCount n pts : ℚ) ≤ n := by exact_mod_cast hc
  nlinarith

/-- Witness for C9 at `n = 1` with the single sample `(0, 0)`. -/
theorem mc_pi_bounds_witness :
    1 ≤ 1 ∧
      (mcPiCount 1 (fun _ => (0, 0)) ≤ 1 ∧
        0 ≤ mc_pi 1 (fun _ => (0, 0)) ∧ mc_pi 1 (fun _ => (0, 0)) ≤ 4) :=
  ⟨by decide, mc_pi_bounds 1 (fun _ => (0, 0)) (by decide)⟩

/-- Heap of list objects for the pure-function example `f(xs)` of the
functional-programming notebook: `objs` are the allocated list objects,
`cur` is the object the local name `xs` is bound to. The argument object
sits at index `0`. -/
structure Env where
  objs : List (List PyVal)
  cur : ℕ

/-- The statement `xs = list(xs)`: allocate a copy of the bound object and
rebind the local name to it. -/
def stmtCopy (e : Env) : Env :=
  { objs := e.objs ++ [e.objs.getD e.cur []], cur := e.objs.length }

/-- The statement `xs[0] = v`: mutate index 0 of whichever object the
local name is bound to. -/
def stmtSet0 (v : PyVal) (e : Env) : Env :=
  { objs := e.objs.set e.cur ((e.objs.getD e.cur []).set 0 v), cur := e.cur }

/-- Body of `f(xs)`:
`if len(xs) > 0: xs = list(xs); xs[0] = "@"` then `return xs`. -/
def fBody (e : Env) : Env :=
  if 0 < (e.objs.getD e.cur []).length then stmtSet0 (PyVal.str "@") (stmtCopy e) else e

/-- Run `f` on argument `xs`: returns the pair (returned list, argument
object after the call). -/
def f_run (xs : List PyVal) : List PyVal × List PyVal :=
  let e1 := fBody { objs := [xs], cur := 0 }
  (e1.objs.getD e1.cur [], e1.objs.getD 0 [])

/-- C10: `f` never mutates its argument: after `f(xs)` the argument object
is unchanged; for non-empty `xs` the returned list has `"@"` at index 0 and
agrees with `xs` at every other index, and for empty `xs` the input is
returned unchanged. -/
theorem f_pure (xs : List PyVal) :
    (f_run xs).2 = xs ∧
      (xs ≠ [] →
        (f_run xs).1.get? 0 = some (PyVal.str "@") ∧
          ∀ i, i ≠ 0 → (f_run xs).1.get? i = xs.get? i) ∧
      (xs = [] → (f_run xs).1 = xs) := by
  cases xs with
  | nil => refine ⟨rfl, fun h => absurd rfl h, fun _ => rfl⟩
  | cons y ys =>
    refine ⟨?_, fun _ => ⟨?_, ?_⟩, fun h => by simp at h⟩
    · simp [f_run, fBody, stmtCopy, stmtSet0]
    · simp [f_run, fBody, stmtCopy, stmtSet0]
    · intro i hi
      cases i with
      | zero => omega
      | succ i => simp [f_run, fBody, stmtCopy, stmtSet0]

/-- Witness for C10 at `xs = [1, 2]`. -/
theorem f_pure_witness :
    (f_run [PyVal.int 1, PyVal.int 2]).2 = [PyVal.int 1, PyVal.int 2] ∧
      (f_run [PyVal.int 1, PyVal.int 2]).1.get? 0 = some (PyVal.str "@") ∧
      (f_run [PyVal.int 1, PyVal.int 2]).1.get? 1 =
        [PyVal.int 1, PyVal.int 2].get? 1 :=
  ⟨(f_pure _).1,
    ((f_pure [PyVal.int 1, PyVal.int 2]).2.1 (by decide)).1,
    ((f_pure [PyVal.int 1, PyVal.int 2]).2.1 (by decide)).2 1 (by decide)⟩


/-- Status of one task of the locked counter example (cell 15 of
`S07A_Parallel.ipynb`): `count_with_lock` does `lock.acquire()`, reads
`val.value`, writes `val.value + 1`, then `lock.release()`.  A task is
idle before its turn, holds the lock before the read, after the read
(carrying the value read), and after the write, and is done after the
release. -/
inductive LStat where
  | idle
  | preRead
  | postRead (tmp : ℕ)
  | postWrite
  | done
deriving DecidableEq

/-- Shared state for `N` tasks running `count_with_lock`: the shared
counter `val.value`, the current lock holder, and each task's status. -/
@[ext]
structure LState (N : ℕ) where
  val : ℕ
  holder : Option (Fin N)
  stat : Fin N → LStat

/-- Atomic actions of `count_with_lock`: acquire the lock, read the
shared value, write it back incremented, release the lock. -/
inductive LAct (N : ℕ) where
  | acq (t : Fin N)
  | readv (t : Fin N)
  | writev (t : Fin N)
  | rel (t : Fin N)

/-- One interleaving step of the locked counter: `acq` succeeds only when
the lock is free, the read and write require the lock to be held by the
acting task, and `val.value += 1` is split into its read and its write. -/
def lstep {N : ℕ} (s : LState N) : LAct N → Option (LState N)
  | .acq t =>
    if s.holder = none ∧ s.stat t = .idle then
      some { s with holder := some t, stat := Function.update s.stat t .preRead }
    else none
  | .readv t =>
    if s.holder = some t ∧ s.stat t = .preRead then
      some { s with stat := Function.update s.stat t (.postRead s.val) }
    else none
  | .writev t =>
    match s.stat t with
    | .postRead tmp =>
      if s.holder = some t then
        some { s with val := tmp + 1, stat := Function.update s.stat t .postWrite }
      else none
    | _ => none
  | .rel t =>
    if s.holder = some t ∧ s.stat t = .postWrite then
      some { s with holder := none, stat := Function.update s.stat t .done }
    else none

/-- Execute a schedule (one interleaving of the workers) of the locked
counter; `none` when a step is not enabled. -/
def lrun {N : ℕ} (s : LState N) : List (LAct N) → Option (LState N)
  | [] => some s
  | a :: tr =>
    match lstep s a with
    | some s2 => lrun s2 tr
    | none => none

/-- Initial state: `val = Value('i', 0)`, lock free, all tasks pending. -/
def linit (N : ℕ) : LState N :=
  { val := 0, holder := none, stat := fun _ => .idle }

/-- Number of tasks that have completed their increment. -/
def countDone {N : ℕ} (f : Fin N → LStat) : ℕ :=
  ∑ t : Fin N, if f t = LStat.done then 1 else 0

/-- Mutual-exclusion invariant of the locked counter: every task inside
the critical section is the lock holder, a read value equals the current
counter, and the counter equals the number of finished increments plus
one for a write that has happened but is not yet released. -/
def LInv {N : ℕ} (s : LState N) : Prop :=
  (∀ t, s.stat t ≠ .idle → s.stat t ≠ .done → s.holder = some t) ∧
  (∀ t tmp, s.stat t = .postRead tmp → tmp = s.val) ∧
  s.val = countDone s.stat + (if ∃ t, s.stat t = .postWrite then 1 else 0)

theorem countDone_update {N : ℕ} (f : Fin N → LStat) (t : Fin N) (v : LStat) :
    countDone (Function.update f t v) =
      (if v = LStat.done then (1:ℕ) else 0) +
        ∑ u ∈ Finset.univ.erase t, (if f u = LStat.done then (1:ℕ) else 0) := by
  have hfun : (fun u => if Function.update f t v u = LStat.done then (1:ℕ) else 0) =
      Function.update (fun u => if f u = LStat.done then (1:ℕ) else 0) t
        (if v = LStat.done then 1 else 0) := by
    funext u
    by_cases hu : u = t
    · subst hu; simp
    · simp [Function.update_noteq hu]
  rw [countDone]
  calc (∑ u : Fin N, if Function.update f t v u = LStat.done then (1:ℕ) else 0)
      = ∑ u : Fin N, Function.update (fun u => if f u = LStat.done then (1:ℕ) else 0) t
          (if v = LStat.done then 1 else 0) u := by rw [hfun]
    _ = _ := by
        rw [Finset.sum_update_of_mem (Finset.mem_univ t)]
        rw [Finset.sdiff_singleton_eq_erase]

theorem countDone_split {N : ℕ} (f : Fin N → LStat) (t : Fin N) :
    countDone f =
      (if f t = LStat.done then (1:ℕ) else 0) +
        ∑ u ∈ Finset.univ.erase t, (if f u = LStat.done then (1:ℕ) else 0) :=
  (Finset.add_sum_erase _ _ (Finset.mem_univ t)).symm

theorem lstep_inv {N : ℕ} (s s2 : LState N) (a : LAct N)
    (h : lstep s a = some s2) (hinv : LInv s) : LInv s2 := by
  obtain ⟨h1, h2, h3⟩ := hinv
  cases a with
  | acq t =>
    simp only [lstep] at h
    split_ifs at h with hc
    obtain ⟨hh, hst⟩ := hc
    injection h with h
    subst h
    have hnoPW : ¬∃ u, s.stat u = LStat.postWrite := by
      rintro ⟨u, hu⟩
      have := h1 u (by simp [hu]) (by simp [hu])
      rw [hh] at this
      exact Option.noConfusion this
    refine ⟨?_, ?_, ?_⟩
    · intro u hu1 hu2
      dsimp only at hu1 hu2 ⊢
      by_cases hut : u = t
      · subst hut; rfl
      · rw [Function.update_noteq hut] at hu1 hu2
        have := h1 u hu1 hu2
        rw [hh] at this
        exact Option.noConfusion this
    · intro u tmp hu
      dsimp only at hu ⊢
      by_cases hut : u = t
      · subst hut
        rw [Function.update_same] at hu
        exact LStat.noConfusion hu
      · rw [Function.update_noteq hut] at hu
        exact h2 u tmp hu
    · dsimp only
      have hnoPW2 : ¬∃ u, Function.update s.stat t LStat.preRead u = LStat.postWrite := by
        rintro ⟨u, hu⟩
        by_cases hut : u = t
        · subst hut; rw [Function.update_same] at hu; exact LStat.noConfusion hu
        · rw [Function.update_noteq hut] at hu; exact hnoPW ⟨u, hu⟩
      rw [if_neg hnoPW2, countDone_update]
      rw [h3, if_neg hnoPW]
      rw [countDone_split s.stat t, hst]
      simp
  | readv t =>
    simp only [lstep] at h
    split_ifs at h with hc
    obtain ⟨hh, hst⟩ := hc
    injection h with h
    subst h
    have hnoPW : ¬∃ u, s.stat u = LStat.postWrite := by
      rintro ⟨u, hu⟩
      have h4 := h1 u (by simp [hu]) (by simp [hu])
      rw [hh] at h4
      have h5 : u = t := by injection h4 with h5; exact h5.symm
      subst h5
      rw [hu] at hst
      exact LStat.noConfusion hst
    refine ⟨?_, ?_, ?_⟩
    · intro u hu1 hu2
      dsimp only at hu1 hu2 ⊢
      by_cases hut : u = t
      · subst hut; exact hh
      · rw [Function.update_noteq hut] at hu1 hu2
        exact h1 u hu1 hu2
    · intro u tmp hu
      dsimp only at hu ⊢
      by_cases hut : u = t
      · subst hut
        rw [Function.update_same] at hu
        injection hu with h
        exact h.symm
      · rw [Function.update_noteq hut] at hu
        exact h2 u tmp hu
    · dsimp only
      have hnoPW2 : ¬∃ u, Function.update s.stat t (LStat.postRead s.val) u =
          LStat.postWrite := by
        rintro ⟨u, hu⟩
        by_cases hut : u = t
        · subst hut; rw [Function.update_same] at hu; exact LStat.noConfusion hu
        · rw [Function.update_noteq hut] at hu; exact hnoPW ⟨u, hu⟩
      rw [if_neg hnoPW2, countDone_update]
      rw [h3, if_neg hnoPW]
      rw [countDone_split s.stat t, hst]
      simp
  | writev t =>
    simp only [lstep] at h
    cases hst : s.stat t with
    | postRead tmp =>
      rw [hst] at h
      split_ifs at h with hh
      injection h with h
      subst h
      have htmp : tmp = s.val := h2 t tmp hst
      have hnoPW : ¬∃ u, s.stat u = LStat.postWrite := by
        rintro ⟨u, hu⟩
        have h4 := h1 u (by simp [hu]) (by simp [hu])
        rw [hh] at h4
        have h5 : u = t := by injection h4 with h5; exact h5.symm
        subst h5
        rw [hu] at hst
        exact LStat.noConfusion hst
      refine ⟨?_, ?_, ?_⟩
      · intro u hu1 hu2
        dsimp only at hu1 hu2 ⊢
        by_cases hut : u = t
        · subst hut; exact hh
        · rw [Function.update_noteq hut] at hu1 hu2
          exact h1 u hu1 hu2
      · intro u tmp2 hu
        dsimp only at hu ⊢
        by_cases hut : u = t
        · subst hut
          rw [Function.update_same] at hu
          exact LStat.noConfusion hu
        · rw [Function.update_noteq hut] at hu
          have h4 := h1 u (by simp [hu]) (by simp [hu])
          rw [hh] at h4
          have h5 : u = t := by injection h4 with h5; exact h5.symm
          exact absurd h5 hut
      · dsimp only
        have hPW2 : ∃ u, Function.update s.stat t LStat.postWrite u = LStat.postWrite :=
          ⟨t, Function.update_same t _ _⟩
        rw [if_pos hPW2, countDone_update]
        rw [htmp, h3, if_neg hnoPW]
        rw [countDone_split s.stat t, hst]
        simp
    | idle => rw [hst] at h; exact Option.noConfusion h
    | preRead => rw [hst] at h; exact Option.noConfusion h
    | postWrite => rw [hst] at h; exact Option.noConfusion h
    | done => rw [hst] at h; exact Option.noConfusion h
  | rel t =>
    simp only [lstep] at h
    split_ifs at h with hc
    obtain ⟨hh, hst⟩ := hc
    injection h with h
    subst h
    have hPW : ∃ u, s.stat u = LStat.postWrite := ⟨t, hst⟩
    refine ⟨?_, ?_, ?_⟩
    · intro u hu1 hu2
      dsimp only at hu1 hu2 ⊢
      by_cases hut : u = t
      · subst hut
        rw [Function.update_same] at hu2
        exact absurd rfl hu2
      · rw [Function.update_noteq hut] at hu1 hu2
        have h4 := h1 u hu1 hu2
        rw [hh] at h4
        have h5 : u = t := by injection h4 with h5; exact h5.symm
        exact absurd h5 hut
    · intro u tmp hu
      dsimp only at hu ⊢
      by_cases hut : u = t
      · subst hut
        rw [Function.update_same] at hu
        exact LStat.noConfusion hu
      · rw [Function.update_noteq hut] at hu
        exact h2 u tmp hu
    · dsimp only
      have hnoPW2 : ¬∃ u, Function.update s.stat t LStat.done u = LStat.postWrite := by
        rintro ⟨u, hu⟩
        by_cases hut : u = t
        · subst hut; rw [Function.update_same] at hu; exact LStat.noConfusion hu
        · rw [Function.update_noteq hut] at hu
          have h4 := h1 u (by simp [hu]) (by simp [hu])
          rw [hh] at h4
          have h5 : u = t := by injection h4 with h5; exact h5.symm
          exact absurd h5 hut
      rw [if_neg hnoPW2, countDone_update]
      rw [h3, if_pos hPW]
      rw [countDone_split s.stat t, hst]
      simp [Nat.add_comm]

theorem lrun_inv {N : ℕ} :
    ∀ (tr : List (LAct N)) (s s2 : LState N),
      lrun s tr = some s2 → LInv s → LInv s2 := by
  intro tr
  induction tr with
  | nil =>
    intro s s2 h hs
    injection h with h
    subst h
    exact hs
  | cons a tr ih =>
    intro s s2 h hs
    rw [lrun] at h
    cases hstep : lstep s a with
    | some s1 =>
      rw [hstep] at h
      exact ih s1 s2 h (lstep_inv s s1 a hstep hs)
    | none => rw [hstep] at h; exact Option.noConfusion h

theorem linit_inv (N : ℕ) : LInv (linit N) := by
  refine ⟨?_, ?_, ?_⟩
  · intro t ht1 _
    exact absurd rfl ht1
  · intro t tmp ht
    exact LStat.noConfusion ht
  · have hno : ¬∃ t : Fin N, (linit N).stat t = LStat.postWrite := by
      rintro ⟨t, ht⟩
      exact LStat.noConfusion ht
    rw [if_neg hno]
    simp [linit, countDone]

theorem locked_total {N : ℕ} (s : LState N) (hinv : LInv s)
    (hdone : ∀ t, s.stat t = LStat.done) : s.val = N := by
  obtain ⟨_, _, h3⟩ := hinv
  have hno : ¬∃ t, s.stat t = LStat.postWrite := by
    rintro ⟨t, ht⟩
    rw [hdone t] at ht
    exact LStat.noConfusion ht
  rw [if_neg hno] at h3
  have hcd : countDone s.stat = N := by
    rw [countDone]
    have : ∀ t : Fin N, (if s.stat t = LStat.done then (1:ℕ) else 0) = 1 := by
      intro t
      rw [if_pos (hdone t)]
    rw [Finset.sum_congr rfl fun t _ => this t]
    simp
  omega

/-- Status of one task of the unlocked counter (`count_with_value`, cell
12 of `S07A_Parallel.ipynb`): `val.value += 1` with no lock is a read of
`val.value` followed by a write of the read value plus one. -/
inductive UStat where
  | idle
  | got (tmp : ℕ)
  | done
deriving DecidableEq

/-- Shared state for `N` tasks running `count_with_value`. -/
@[ext]
structure UState (N : ℕ) where
  val : ℕ
  stat : Fin N → UStat

/-- Actions of the unlocked counter: the read and the write of one
increment. -/
inductive UAct (N : ℕ) where
  | readv (t : Fin N)
  | writev (t : Fin N)

/-- One interleaving step of the unlocked counter: any pending task may
read at any time, and a task that has read may write at any time. -/
def ustep {N : ℕ} (s : UState N) : UAct N → Option (UState N)
  | .readv t =>
    if s.stat t = .idle then
      some { s with stat := Function.update s.stat t (.got s.val) }
    else none
  | .writev t =>
    match s.stat t with
    | .got tmp => some { val := tmp + 1, stat := Function.update s.stat t .done }
    | _ => none

/-- Execute a schedule of the unlocked counter. -/
def urun {N : ℕ} (s : UState N) : List (UAct N) → Option (UState N)
  | [] => some s
  | a :: tr =>
    match ustep s a with
    | some s2 => urun s2 tr
    | none => none

/-- Initial state of the unlocked counter. -/
def uinit (N : ℕ) : UState N := { val := 0, stat := fun _ => .idle }

theorem ureads {N : ℕ} :
    ∀ (l : List (Fin N)) (s : UState N), (∀ t ∈ l, s.stat t = .idle) → l.Nodup →
      urun s (l.map UAct.readv) =
        some { val := s.val, stat := fun u => if u ∈ l then .got s.val else s.stat u } := by
  intro l
  induction l with
  | nil =>
    intro s _ _
    simp [urun]
  | cons t l ih =>
    intro s hidle hnd
    have ht : s.stat t = .idle := hidle t (List.mem_cons_self t l)
    have hnotin : t ∉ l := (List.nodup_cons.mp hnd).1
    have hune : ∀ u ∈ l, u ≠ t := fun u hu he => hnotin (by rw [← he]; exact hu)
    simp only [List.map_cons, urun, ustep, if_pos ht]
    rw [ih _ (fun u hu => by
      dsimp only
      rw [Function.update_noteq (hune u hu)]
      exact hidle u (List.mem_cons_of_mem t hu)) (List.nodup_cons.mp hnd).2]
    congr 1
    ext u
    · rfl
    · dsimp only
      by_cases hul : u ∈ l
      · simp [hul, List.mem_cons]
      · by_cases hut : u = t
        · subst hut
          simp [hul, Function.update_same]
        · simp [hul, hut, Function.update_noteq hut]

theorem uwrites {N : ℕ} :
    ∀ (l : List (Fin N)) (s : UState N) (w : ℕ),
      (∀ t ∈ l, s.stat t = .got w) → l.Nodup → l ≠ [] →
      urun s (l.map UAct.writev) =
        some { val := w + 1, stat := fun u => if u ∈ l then .done else s.stat u } := by
  intro l
  induction l with
  | nil => intro s w _ _ hne; exact absurd rfl hne
  | cons t l ih =>
    intro s w hgot hnd _
    have ht : s.stat t = .got w := hgot t (List.mem_cons_self t l)
    have hnotin : t ∉ l := (List.nodup_cons.mp hnd).1
    have hune : ∀ u ∈ l, u ≠ t := fun u hu he => hnotin (by rw [← he]; exact hu)
    simp only [List.map_cons, urun, ustep, ht]
    cases hl : l with
    | nil =>
      subst hl
      simp only [List.map_nil, urun]
      congr 1
      ext u
      · rfl
      · dsimp only
        by_cases hut : u = t
        · subst hut
          simp [Function.update_same]
        · simp [hut, Function.update_noteq hut]
    | cons t2 l2 =>
      rw [← hl]
      have hl2 : l ≠ [] := by rw [hl]; exact List.cons_ne_nil t2 l2
      rw [ih _ w (fun u hu => by
        dsimp only
        rw [Function.update_noteq (hune u hu)]
        exact hgot u (List.mem_cons_of_mem t hu)) (List.nodup_cons.mp hnd).2 hl2]
      congr 1
      ext u
      · rfl
      · dsimp only
        by_cases hul : u ∈ l
        · simp [hul, List.mem_cons]
        · by_cases hut : u = t
          · subst hut
            simp [hul, Function.update_same]
          · simp [hul, hut, Function.update_noteq hut]

theorem urun_append {N : ℕ} :
    ∀ (l1 l2 : List (UAct N)) (s : UState N),
      urun s (l1 ++ l2) =
        match urun s l1 with
        | some s1 => urun s1 l2
        | none => none := by
  intro l1
  induction l1 with
  | nil => intro l2 s; rfl
  | cons a l1 ih =>
    intro l2 s
    simp only [List.cons_append, urun]
    cases ustep s a with
    | some s1 => exact ih l2 s1
    | none => rfl

/-- A serial schedule of the locked counter: each listed task acquires,
reads, writes and releases before the next starts. -/
def lockBlocks {N : ℕ} : List (Fin N) → List (LAct N)
  | [] => []
  | t :: l => .acq t :: .readv t :: .writev t :: .rel t :: lockBlocks l

theorem lrun_blocks {N : ℕ} :
    ∀ (l : List (Fin N)) (s : LState N),
      s.holder = none → (∀ t ∈ l, s.stat t = .idle) → l.Nodup →
      lrun s (lockBlocks l) =
        some { val := s.val + l.length, holder := none,
               stat := fun u => if u ∈ l then .done else s.stat u } := by
  intro l
  induction l with
  | nil =>
    intro s hh _ _
    simp only [lockBlocks, lrun, List.length_nil, Nat.add_zero]
    congr 1
    ext u
    · rfl
    · simp [hh]
    · simp
  | cons t l ih =>
    intro s hh hidle hnd
    have ht : s.stat t = .idle := hidle t (List.mem_cons_self t l)
    have hnotin : t ∉ l := (List.nodup_cons.mp hnd).1
    have hune : ∀ u ∈ l, u ≠ t := fun u hu he => hnotin (by rw [← he]; exact hu)
    simp only [lockBlocks, lrun, lstep, hh, ht, Function.update_same, and_self, if_true,
      Function.update_idem]
    rw [ih (LState.mk (s.val + 1) none (Function.update s.stat t LStat.done)) rfl
      (fun u hu => by
        dsimp only
        rw [Function.update_noteq (hune u hu)]
        exact hidle u (List.mem_cons_of_mem t hu)) (List.nodup_cons.mp hnd).2]
    congr 1
    ext u
    · dsimp only
      simp only [List.length_cons]
      omega
    · exact Iff.rfl
    · dsimp only
      by_cases hul : u ∈ l
      · simp [hul, List.mem_cons]
      · by_cases hut : u = t
        · subst hut
          simp [hul, Function.update_same]
        · simp [hul, hut, Function.update_noteq hut]

/-- C8: with the lock held around each increment, the shared counter is
race-free: every completed interleaving of the 1000 increment tasks of
`pool.map(count_with_lock, range(1000))` ends with `val.value = 1000`;
the unlocked `count_with_value` admits an interleaving of the same 1000
tasks whose final value is less than 1000. -/
theorem counter_lock_race :
    (∀ (tr : List (LAct 1000)) (s2 : LState 1000),
        lrun (linit 1000) tr = some s2 →
        (∀ t, s2.stat t = LStat.done) → s2.val = 1000) ∧
      (∃ (tr : List (UAct 1000)) (s2 : UState 1000),
        urun (uinit 1000) tr = some s2 ∧
          (∀ t, s2.stat t = UStat.done) ∧ s2.val < 1000) := by
  constructor
  · intro tr s2 hrun hdone
    exact locked_total s2 (lrun_inv tr (linit 1000) s2 hrun (linit_inv 1000)) hdone
  · have hr := ureads (List.finRange 1000) (uinit 1000)
      (fun t _ => rfl) (List.nodup_finRange 1000)
    have hne : List.finRange 1000 ≠ ([] : List (Fin 1000)) := by
      intro h
      have hl := List.length_finRange 1000
      rw [h] at hl
      simp at hl
    have hw := uwrites (List.finRange 1000)
      { val := (uinit 1000).val,
        stat := fun u => if u ∈ List.finRange 1000 then UStat.got (uinit 1000).val
          else (uinit 1000).stat u }
      (uinit 1000).val
      (fun t _ => by simp [List.mem_finRange])
      (List.nodup_finRange 1000) hne
    refine ⟨(List.finRange 1000).map UAct.readv ++ (List.finRange 1000).map UAct.writev,
      { val := (uinit 1000).val + 1,
        stat := fun u =>
          if u ∈ List.finRange 1000 then UStat.done
          else
            ({ val := (uinit 1000).val,
               stat := fun u => if u ∈ List.finRange 1000 then UStat.got (uinit 1000).val
                 else (uinit 1000).stat u } : UState 1000).stat u }, ?_, ?_, ?_⟩
    · rw [urun_append, hr]
      exact hw
    · intro t
      simp [List.mem_finRange]
    · show (uinit 1000).val + 1 < 1000
      show 0 + 1 < 1000
      norm_num

/-- Witness for C8: the serial schedule over all 1000 tasks completes and
the theorem yields the final value 1000. -/
theorem counter_lock_race_witness :
    lrun (linit 1000) (lockBlocks (List.finRange 1000)) =
        some { val := (linit 1000).val + (List.finRange 1000).length, holder := none,
               stat := fun u => if u ∈ List.finRange 1000 then LStat.done
                 else (linit 1000).stat u } ∧
      ({ val := (linit 1000).val + (List.finRange 1000).length, holder := none,
         stat := fun u => if u ∈ List.finRange 1000 then LStat.done
           else (linit 1000).stat u } : LState 1000).val = 1000 := by
  have hrun := lrun_blocks (List.finRange 1000) (linit 1000) rfl (fun t _ => rfl)
    (List.nodup_finRange 1000)
  refine ⟨hrun, ?_⟩
  exact counter_lock_race.1 _ _ hrun (fun t => by simp [List.mem_finRange])
